import Mathlib

/-!
Verification of the interaction extractor and color-change scorer of the
binary-paintshop notebook (docs/qaoa/binary_paintshop.ipynb).

The two Python functions embedded here are `spin_glass` (a generator that
walks adjacent pairs of a car sequence, threading a `set` named
`appeared_already`, and yields interaction triples) and `color_changes`
(which derives a color sequence from a paint bitstring and counts adjacent
color changes).  Python sets are modelled as lists used only through
membership, identifiers as natural numbers, and interaction signs as
integers.
-/

/-- The value the source binds to the local variable `ferromagnetic`
inside `spin_glass`. -/
def ferromagnetic : Int := -1

/-- The value the source binds to the local variable `antiferromagnetic`
inside `spin_glass`. -/
def antiferromagnetic : Int := 1

/-- The loop of `spin_glass`: iterate over `zip(car_sequence, car_sequence[1:])`
threading the `appeared_already` set (modelled as a list used only through
membership).  When `car0 == car1` the Python `continue` skips the iteration
without touching the set; otherwise `car0` is added and the branch on
membership of `car0` (before the add) and `car1` (after the add) selects the
yielded sign. -/
def spinGlassAux (appeared : List Nat) : List Nat → List (Nat × Nat × Int)
  | car0 :: car1 :: rest =>
    if car0 = car1 then
      spinGlassAux appeared (car1 :: rest)
    else if car0 ∈ appeared then
      if car1 ∈ car0 :: appeared then
        (car0, car1, ferromagnetic) :: spinGlassAux (car0 :: appeared) (car1 :: rest)
      else
        (car0, car1, antiferromagnetic) :: spinGlassAux (car0 :: appeared) (car1 :: rest)
    else
      if car1 ∈ car0 :: appeared then
        (car0, car1, antiferromagnetic) :: spinGlassAux (car0 :: appeared) (car1 :: rest)
      else
        (car0, car1, ferromagnetic) :: spinGlassAux (car0 :: appeared) (car1 :: rest)
  | _ => []

/-- `spin_glass` from the notebook: assign interactions between adjacent
cars, starting from an empty `appeared_already` set. -/
def spin_glass (car_sequence : List Nat) : List (Nat × Nat × Int) :=
  spinGlassAux [] car_sequence

/-- First-occurrence flags: `occFlags seen s` lists, for each position of
`s`, whether its identifier has NOT appeared at an earlier position
(`seen` collects the identifiers of all earlier positions). -/
def occFlags (seen : List Nat) : List Nat → List Bool
  | [] => []
  | a :: rest => decide (a ∉ seen) :: occFlags (a :: seen) rest

/-- Modelled from the spec: the interaction list described by the contract,
with occurrence status meaning whether the identifier has already appeared
at an earlier position of the sequence (the `seen` accumulator records
every earlier element, including members of adjacent equal pairs).  A pair
of equal adjacent identifiers emits nothing; otherwise the sign is
ferromagnetic when both positions have the same occurrence status and
antiferromagnetic when the statuses differ. -/
def specSpinGlass (seen : List Nat) : List Nat → List (Nat × Nat × Int)
  | a :: b :: rest =>
    (if a = b then [] else
      [(a, b, if decide (a ∉ seen) = decide (b ∉ a :: seen)
              then ferromagnetic else antiferromagnetic)])
    ++ specSpinGlass (a :: seen) (b :: rest)
  | _ => []

/-- Number of adjacent position pairs with differing identifiers. -/
def countDiffAdj : List Nat → Nat
  | a :: b :: rest => (if a = b then 0 else 1) + countDiffAdj (b :: rest)
  | _ => 0

/-- Number of immediately-adjacent equal elements. -/
def countEqAdj : List Nat → Nat
  | a :: b :: rest => (if a = b then 1 else 0) + countEqAdj (b :: rest)
  | _ => 0

/-- Projection of an interaction list to its list of signs. -/
def interactionSigns (l : List (Nat × Nat × Int)) : List Int :=
  l.map (fun t => t.2.2)

/-- Every identifier of the sequence appears in it exactly twice. -/
def eachExactlyTwice (s : List Nat) : Prop :=
  ∀ x ∈ s, s.count x = 2

instance (s : List Nat) : Decidable (eachExactlyTwice s) :=
  inferInstanceAs (Decidable (∀ x ∈ s, s.count x = 2))

/-- No two adjacent elements of the sequence are equal. -/
def noAdjacentEqual (s : List Nat) : Prop :=
  List.Chain' (fun a b => a ≠ b) s

/-- Boolean test for `noAdjacentEqual`. -/
def noAdjEqB : List Nat → Bool
  | a :: b :: rest => (a != b) && noAdjEqB (b :: rest)
  | _ => true

theorem noAdjacentEqual_iff_b :
    ∀ s : List Nat, noAdjacentEqual s ↔ noAdjEqB s = true := by
  intro s
  induction s with
  | nil => simp [noAdjacentEqual, noAdjEqB]
  | cons a t ih =>
    cases t with
    | nil => simp [noAdjacentEqual, noAdjEqB]
    | cons b rest =>
      simp only [noAdjEqB, Bool.and_eq_true, bne_iff_ne, ← ih]
      exact List.chain'_cons

instance (s : List Nat) : Decidable (noAdjacentEqual s) :=
  decidable_of_iff (noAdjEqB s = true) (noAdjacentEqual_iff_b s).symm

/-- A malformed input in the sense of the spec: some identifier occurs a
number of times other than exactly two, or the length is odd. -/
def malformedSequence (s : List Nat) : Prop :=
  (∃ x ∈ s, s.count x ≠ 2) ∨ s.length % 2 = 1

instance (s : List Nat) : Decidable (malformedSequence s) :=
  inferInstanceAs (Decidable ((∃ x ∈ s, s.count x ≠ 2) ∨ s.length % 2 = 1))

/-- The color-sequence loop of `color_changes`: for each car, the first
occurrence (not yet in `painted_once`) gets the color noted in
`paint_bitstring`, a later occurrence gets the other color; `painted_once`
is the Python set, modelled as a list used only through membership. -/
def colorSeqAux (paint_bitstring : List Bool) (painted_once : List Nat) :
    List Nat → List Bool
  | [] => []
  | car :: rest =>
    if car ∈ painted_once then
      (!paint_bitstring.getD car false) :: colorSeqAux paint_bitstring painted_once rest
    else
      paint_bitstring.getD car false :: colorSeqAux paint_bitstring (car :: painted_once) rest

/-- The counting loop of `color_changes`: number of adjacent positions of
the color sequence holding different colors. -/
def paintChangeCount : List Bool → Nat
  | c0 :: c1 :: rest => (if c0 = c1 then 0 else 1) + paintChangeCount (c1 :: rest)
  | _ => 0

/-- `color_changes` from the notebook: derive the color sequence from the
paint bitstring and the car sequence, then count adjacent color changes. -/
def color_changes (paint_bitstring : List Bool) (car_sequence : List Nat) : Nat :=
  paintChangeCount (colorSeqAux paint_bitstring [] car_sequence)

/-- Modelled from the spec: the color at each position is the noted color
of the identifier at a first occurrence and its Boolean negation at every
later occurrence, occurrence status taken positionally. -/
def specColorSeq (paint_bitstring : List Bool) (s : List Nat) : List Bool :=
  List.zipWith
    (fun car fa => if fa then paint_bitstring.getD car false
                   else !paint_bitstring.getD car false)
    s (occFlags [] s)

/-! ### Bridging lemmas for `spin_glass` -/

/-- On inputs without adjacent equal elements, the `appeared_already` set of
the source loop tracks exactly the identifiers of earlier positions, so the
loop agrees with the occurrence-status description of the spec.  The lemma
generalises over any pair of membership-equivalent accumulators. -/
theorem spinGlassAux_eq_spec :
    ∀ (t ap seen : List Nat), (∀ x, x ∈ ap ↔ x ∈ seen) →
      noAdjacentEqual t → spinGlassAux ap t = specSpinGlass seen t := by
  intro t
  induction t with
  | nil => intro ap seen _ _; rfl
  | cons a t ih =>
    intro ap seen hm hch
    cases t with
    | nil => rfl
    | cons b rest =>
      have hab : a ≠ b := (List.chain'_cons.mp hch).1
      have hch2 : noAdjacentEqual (b :: rest) := (List.chain'_cons.mp hch).2
      have hm2 : ∀ x, x ∈ a :: ap ↔ x ∈ a :: seen := by
        intro x; simp only [List.mem_cons, hm x]
      have hrec := ih (a :: ap) (a :: seen) hm2 hch2
      by_cases ha : a ∈ ap
      · have ha2 : a ∈ seen := (hm a).mp ha
        by_cases hb : b ∈ a :: ap
        · have hb2 : b ∈ a :: seen := (hm2 b).mp hb
          simp [spinGlassAux, specSpinGlass, hab, ha, hb, ha2, hb2, hrec]
        · have hb2 : b ∉ a :: seen := fun hx => hb ((hm2 b).mpr hx)
          simp [spinGlassAux, specSpinGlass, hab, ha, hb, ha2, hb2, hrec]
      · have ha2 : a ∉ seen := fun hx => ha ((hm a).mpr hx)
        by_cases hb : b ∈ a :: ap
        · have hb2 : b ∈ a :: seen := (hm2 b).mp hb
          simp [spinGlassAux, specSpinGlass, hab, ha, hb, ha2, hb2, hrec]
        · have hb2 : b ∉ a :: seen := fun hx => hb ((hm2 b).mpr hx)
          simp [spinGlassAux, specSpinGlass, hab, ha, hb, ha2, hb2, hrec]

/-- The loop emits one triple per adjacent pair of differing identifiers,
whatever the accumulated set is. -/
theorem spinGlassAux_length :
    ∀ (t ap : List Nat), (spinGlassAux ap t).length = countDiffAdj t := by
  intro t
  induction t with
  | nil => intro ap; rfl
  | cons a t ih =>
    intro ap
    cases t with
    | nil => rfl
    | cons b rest =>
      by_cases hab : a = b
      · simp [spinGlassAux, countDiffAdj, hab, ih]
      · by_cases ha : a ∈ ap <;> by_cases hb : b ∈ a :: ap <;>
          simp [spinGlassAux, countDiffAdj, hab, ha, hb, ih] <;> omega

/-- Adjacent pairs split into differing and equal ones. -/
theorem countDiffAdj_add_countEqAdj :
    ∀ t : List Nat, countDiffAdj t + countEqAdj t = t.length - 1 := by
  intro t
  induction t with
  | nil => rfl
  | cons a t ih =>
    cases t with
    | nil => rfl
    | cons b rest =>
      have h1 : countDiffAdj (a :: b :: rest)
          = (if a = b then 0 else 1) + countDiffAdj (b :: rest) := rfl
      have h2 : countEqAdj (a :: b :: rest)
          = (if a = b then 1 else 0) + countEqAdj (b :: rest) := rfl
      by_cases hab : a = b
      · rw [h1, h2, if_pos hab, if_pos hab]
        simp only [List.length_cons] at *
        omega
      · rw [h1, h2, if_neg hab, if_neg hab]
        simp only [List.length_cons] at *
        omega

/-- Without adjacent equal elements no adjacent pair is equal. -/
theorem countEqAdj_eq_zero :
    ∀ t : List Nat, noAdjacentEqual t → countEqAdj t = 0 := by
  intro t
  induction t with
  | nil => intro _; rfl
  | cons a t ih =>
    intro h
    cases t with
    | nil => rfl
    | cons b rest =>
      have hab : a ≠ b := (List.chain'_cons.mp h).1
      have h2 := ih (List.chain'_cons.mp h).2
      simp [countEqAdj, hab, h2]

/-! ### Claim theorems C1-C4 -/

/-- C1 (amended): for every sequence in which every identifier appears
exactly twice and no two adjacent elements are equal, `spin_glass` emits,
for each adjacent pair of differing identifiers, the ferromagnetic sign
exactly when the two positions have the same occurrence status (both first
or both second occurrences) and the antiferromagnetic sign exactly when the
statuses differ: its output coincides with the occurrence-status
description `specSpinGlass`. -/
theorem spin_glass_eq_spec (s : List Nat)
    (_h2 : eachExactlyTwice s) (h1 : noAdjacentEqual s) :
    spin_glass s = specSpinGlass [] s :=
  spinGlassAux_eq_spec s [] [] (fun _ => Iff.rfl) h1

/-- Witness for C1 at the sequence [0, 1, 0, 1]. -/
theorem spin_glass_eq_spec_witness :
    spin_glass [0, 1, 0, 1] = specSpinGlass [] [0, 1, 0, 1] :=
  spin_glass_eq_spec [0, 1, 0, 1] (by decide) (by decide)

/-- C1 counterexample: in [0, 0, 1, 1] every identifier appears exactly
twice; the pair at positions 1 and 2 holds differing identifiers whose
occurrence statuses differ (position 1 is a second occurrence of 0,
position 2 a first occurrence of 1), so the claim requires the
antiferromagnetic sign there, yet `spin_glass` emits the ferromagnetic
sign: the skipped set-update of the `continue` branch makes the set lose
the first occurrence of 0. -/
theorem spin_glass_occurrence_claim_false :
    eachExactlyTwice [0, 0, 1, 1] ∧
      occFlags [] [0, 0, 1, 1] = [true, false, true, false] ∧
      spin_glass [0, 0, 1, 1] = [(0, 1, ferromagnetic)] ∧
      specSpinGlass [] [0, 0, 1, 1] = [(0, 1, antiferromagnetic)] ∧
      ferromagnetic ≠ antiferromagnetic := by
  refine ⟨by decide, by decide, by decide, by decide, by decide⟩

/-- C2: the number of triples emitted by `spin_glass` equals
(sequence length − 1) minus the number of immediately-adjacent equal
elements, i.e. the number of adjacent pairs of differing identifiers; a
sequence of length 2n with no adjacent duplicates yields 2n − 1 triples. -/
theorem spin_glass_length (s : List Nat) :
    (spin_glass s).length = (s.length - 1) - countEqAdj s ∧
      (spin_glass s).length = countDiffAdj s ∧
      (∀ n : Nat, noAdjacentEqual s → s.length = 2 * n →
        (spin_glass s).length = 2 * n - 1) := by
  have hlen : (spin_glass s).length = countDiffAdj s := spinGlassAux_length s []
  have hsum := countDiffAdj_add_countEqAdj s
  refine ⟨by omega, hlen, ?_⟩
  intro n h1 h2n
  have hz := countEqAdj_eq_zero s h1
  omega

/-- Witness for C2 at the sequence [0, 1, 0, 1] with n = 2. -/
theorem spin_glass_length_witness :
    (spin_glass [0, 1, 0, 1]).length = 2 * 2 - 1 :=
  (spin_glass_length [0, 1, 0, 1]).2.2 2 (by decide) (by decide)

/-- C3: on input [0, 1, 0, 1] the extractor emits exactly the three triples
(0, 1, ferromagnetic), (1, 0, antiferromagnetic), (0, 1, ferromagnetic),
the occurrence flags being first, first, second, second, and with the
implementation constants the literal output is (0,1,−1), (1,0,1), (0,1,−1). -/
theorem spin_glass_0101 :
    spin_glass [0, 1, 0, 1] = [(0, 1, -1), (1, 0, 1), (0, 1, -1)] ∧
      spin_glass [0, 1, 0, 1] =
        [(0, 1, ferromagnetic), (1, 0, antiferromagnetic), (0, 1, ferromagnetic)] ∧
      occFlags [] [0, 1, 0, 1] = [true, true, false, false] := by
  refine ⟨by decide, by decide, by decide⟩

/-- C4: the source assigns −1 to its `ferromagnetic` local and +1 to its
`antiferromagnetic` local, and whenever the first two elements of the input
differ the first emitted triple is (s0, s1, −1). -/
theorem spin_glass_sign_constants :
    ferromagnetic = -1 ∧ antiferromagnetic = 1 ∧
      ∀ (a b : Nat) (rest : List Nat), a ≠ b →
        ∃ l, spin_glass (a :: b :: rest) = (a, b, -1) :: l := by
  refine ⟨rfl, rfl, ?_⟩
  intro a b rest hab
  refine ⟨spinGlassAux [a] (b :: rest), ?_⟩
  have ha : ¬ (a ∈ ([] : List Nat)) := List.not_mem_nil a
  have hb : ¬ (b ∈ a :: ([] : List Nat)) := by
    simp only [List.mem_cons, List.not_mem_nil, or_false]
    exact fun hx => hab hx.symm
  show spinGlassAux [] (a :: b :: rest) = (a, b, -1) :: spinGlassAux [a] (b :: rest)
  simp only [spinGlassAux]
  rw [if_neg hab, if_neg ha, if_neg hb]
  rfl

/-- Witness for C4 at the sequence [0, 1]. -/
theorem spin_glass_sign_constants_witness :
    ∃ l, spin_glass [0, 1] = (0, 1, -1) :: l :=
  spin_glass_sign_constants.2.2 0 1 [] (by decide)

/-! ### Reversal of the sign sequence (claim C5) -/

/-- Sign assigned by the occurrence-status rule to a pair of
first-occurrence flags. -/
def signOf (fa fb : Bool) : Int :=
  if fa = fb then ferromagnetic else antiferromagnetic

/-- Signs of the adjacent pairs of a flag list. -/
def pairSigns : List Bool → List Int
  | a :: b :: rest => signOf a b :: pairSigns (b :: rest)
  | _ => []

theorem signOf_comm (a b : Bool) : signOf a b = signOf b a := by
  cases a <;> cases b <;> rfl

theorem signOf_not_not (a b : Bool) : signOf (!a) (!b) = signOf a b := by
  cases a <;> cases b <;> rfl

theorem pairSigns_length : ∀ l : List Bool, (pairSigns l).length = l.length - 1 := by
  intro l
  induction l with
  | nil => rfl
  | cons a t ih =>
    cases t with
    | nil => rfl
    | cons b rest => simp only [pairSigns, List.length_cons] at *; omega

theorem pairSigns_getD :
    ∀ (l : List Bool) (i : Nat), i + 1 < l.length →
      (pairSigns l).getD i 0 = signOf (l.getD i false) (l.getD (i + 1) false) := by
  intro l
  induction l with
  | nil => intro i h; simp at h
  | cons a t ih =>
    intro i h
    cases t with
    | nil => simp at h
    | cons b rest =>
      cases i with
      | zero => rfl
      | succ i =>
        have hb : i + 1 < (b :: rest).length := by
          simpa using Nat.lt_of_succ_lt_succ h
        simpa [pairSigns, List.getD_cons_succ] using ih i hb

theorem occFlags_length :
    ∀ (s seen : List Nat), (occFlags seen s).length = s.length := by
  intro s
  induction s with
  | nil => intro seen; rfl
  | cons a t ih => intro seen; simp [occFlags, ih]

theorem occFlags_getD :
    ∀ (s seen : List Nat) (i : Nat), i < s.length →
      (occFlags seen s).getD i false
        = decide (s.getD i 0 ∉ seen ∧ s.getD i 0 ∉ s.take i) := by
  intro s
  induction s with
  | nil => intro seen i h; simp at h
  | cons a t ih =>
    intro seen i h
    cases i with
    | zero => simp [occFlags]
    | succ i =>
      have hi : i < t.length := by simpa using Nat.lt_of_succ_lt_succ h
      rw [show occFlags seen (a :: t) = decide (a ∉ seen) :: occFlags (a :: seen) t
            from rfl,
          List.getD_cons_succ, ih (a :: seen) i hi]
      rw [decide_eq_decide]
      simp only [List.getD_cons_succ, List.take_succ_cons, List.mem_cons]
      tauto

/-- `getD` on a reversed list reads from the mirrored position. -/
theorem getD_reverse {α : Type} (l : List α) (d : α) (i : Nat) (h : i < l.length) :
    l.reverse.getD i d = l.getD (l.length - 1 - i) d := by
  have h1 : i < l.reverse.length := by simpa using h
  have h2 : l.length - 1 - i < l.length := by omega
  rw [List.getD_eq_getElem _ d h1, List.getD_eq_getElem _ d h2]
  rw [List.getElem_reverse]

/-- `getD` after mapping Boolean negation. -/
theorem getD_map_not (l : List Bool) (i : Nat) (h : i < l.length) :
    (l.map not).getD i false = !(l.getD i false) := by
  have h1 : i < (l.map not).length := by simpa using h
  rw [List.getD_eq_getElem _ false h1, List.getD_eq_getElem _ false h]
  simp

theorem pairSigns_reverse (l : List Bool) :
    pairSigns l.reverse = (pairSigns l).reverse := by
  apply List.ext_getElem
  · simp [pairSigns_length]
  · intro i h1 h2
    have hn : i < l.length - 1 := by
      simpa [pairSigns_length] using h1
    rw [← List.getD_eq_getElem _ 0 h1, ← List.getD_eq_getElem _ 0 h2]
    rw [pairSigns_getD l.reverse i (by simp; omega)]
    rw [getD_reverse l false i (by omega), getD_reverse l false (i + 1) (by omega)]
    rw [getD_reverse (pairSigns l) 0 i (by rw [pairSigns_length]; omega)]
    rw [pairSigns_length]
    rw [pairSigns_getD l (l.length - 1 - 1 - i) (by omega)]
    have e1 : l.length - 1 - (i + 1) = l.length - 1 - 1 - i := by omega
    have e2 : l.length - 1 - 1 - i + 1 = l.length - 1 - i := by omega
    rw [e1, e2, signOf_comm]

theorem pairSigns_map_not : ∀ l : List Bool, pairSigns (l.map not) = pairSigns l := by
  intro l
  induction l with
  | nil => rfl
  | cons a t ih =>
    cases t with
    | nil => rfl
    | cons b rest =>
      show signOf (!a) (!b) :: pairSigns ((b :: rest).map not)
          = signOf a b :: pairSigns (b :: rest)
      rw [signOf_not_not, ih]

/-- When every identifier appears exactly twice, the first-occurrence flags
of the reversed sequence are the reversed, negated flags of the original:
an identifier first in the reversed order is exactly one that was second in
the original order. -/
theorem occFlags_reverse (s : List Nat) (h2 : eachExactlyTwice s) :
    occFlags [] s.reverse = ((occFlags [] s).map not).reverse := by
  apply List.ext_getElem
  · simp [occFlags_length]
  · intro j hj1 hj2
    have hn : j < s.length := by simpa [occFlags_length] using hj1
    rw [← List.getD_eq_getElem _ false hj1, ← List.getD_eq_getElem _ false hj2]
    rw [occFlags_getD s.reverse [] j (by simpa using hn)]
    rw [getD_reverse ((occFlags [] s).map not) false j
          (by simp [occFlags_length]; exact hn)]
    have hlen : ((occFlags [] s).map not).length = s.length := by
      simp [occFlags_length]
    rw [hlen]
    have hi0 : s.length - 1 - j < s.length := by omega
    rw [getD_map_not (occFlags [] s) (s.length - 1 - j)
          (by rw [occFlags_length]; omega)]
    rw [occFlags_getD s [] (s.length - 1 - j) hi0]
    rw [getD_reverse s 0 j hn]
    set i0 := s.length - 1 - j with hi0def
    have htake : s.reverse.take j = (s.drop (s.length - j)).reverse :=
      List.take_reverse
    have hdrop : s.length - j = i0 + 1 := by omega
    rw [htake, hdrop]
    set x := s.getD i0 0 with hxdef
    have hx : x ∈ s := by
      rw [hxdef, List.getD_eq_getElem s 0 hi0]
      exact List.getElem_mem hi0
    have hcount : s.count x = 2 := h2 x hx
    have hsplit : s.take i0 ++ x :: s.drop (i0 + 1) = s := by
      rw [hxdef, List.getD_eq_getElem s 0 hi0]
      rw [← List.drop_eq_getElem_cons hi0]
      exact List.take_append_drop i0 s
    have hcnt2 : (s.take i0 ++ x :: s.drop (i0 + 1)).count x = 2 := by
      rw [hsplit]; exact hcount
    rw [List.count_append, List.count_cons_self] at hcnt2
    have hiff : x ∉ (s.drop (i0 + 1)).reverse ↔ x ∈ s.take i0 := by
      rw [List.mem_reverse]
      constructor
      · intro hnd
        have hd0 : (s.drop (i0 + 1)).count x = 0 :=
          List.count_eq_zero.mpr hnd
        have : 0 < (s.take i0).count x := by omega
        exact List.count_pos_iff.mp this
      · intro ht
        have : 0 < (s.take i0).count x := List.count_pos_iff.mpr ht
        have hd0 : (s.drop (i0 + 1)).count x = 0 := by omega
        exact List.count_eq_zero.mp hd0
    rw [show (!decide (x ∉ [] ∧ x ∉ s.take i0))
          = decide (¬ (x ∉ [] ∧ x ∉ s.take i0)) from decide_not.symm]
    rw [decide_eq_decide]
    simp only [List.not_mem_nil, not_false_iff, true_and]
    tauto

/-- The signs of the spec-described interaction list are the pair signs of
the first-occurrence flags, as long as no adjacent pair is equal (an equal
adjacent pair would advance the flags without emitting). -/
theorem specSpinGlass_signs :
    ∀ (t seen : List Nat), noAdjacentEqual t →
      interactionSigns (specSpinGlass seen t) = pairSigns (occFlags seen t) := by
  intro t
  induction t with
  | nil => intro seen _; rfl
  | cons a t ih =>
    intro seen hch
    cases t with
    | nil => rfl
    | cons b rest =>
      have hab : a ≠ b := (List.chain'_cons.mp hch).1
      have h2 := ih (a :: seen) (List.chain'_cons.mp hch).2
      have e1 : specSpinGlass seen (a :: b :: rest)
          = (a, b, signOf (decide (a ∉ seen)) (decide (b ∉ a :: seen)))
            :: specSpinGlass (a :: seen) (b :: rest) := by
        simp only [specSpinGlass, if_neg hab, signOf, List.singleton_append]
      rw [e1]
      show signOf (decide (a ∉ seen)) (decide (b ∉ a :: seen))
          :: interactionSigns (specSpinGlass (a :: seen) (b :: rest))
        = signOf (decide (a ∉ seen)) (decide (b ∉ a :: seen))
          :: pairSigns (occFlags (a :: seen) (b :: rest))
      rw [h2]

/-- C5 counterexample: [1, 0, 0, 2, 1, 2] has every identifier exactly
twice, yet the sign list of the reversed input is not the reverse of the
original sign list (the adjacent pair 0, 0 shifts which neighbouring pair
is misclassified by the set tracking). -/
theorem spin_glass_reverse_claim_false :
    eachExactlyTwice [1, 0, 0, 2, 1, 2] ∧
      interactionSigns (spin_glass [1, 0, 0, 2, 1, 2]) = [-1, -1, 1, -1] ∧
      interactionSigns (spin_glass (List.reverse [1, 0, 0, 2, 1, 2])) = [-1, 1, 1, 1] ∧
      interactionSigns (spin_glass (List.reverse [1, 0, 0, 2, 1, 2]))
        ≠ (interactionSigns (spin_glass [1, 0, 0, 2, 1, 2])).reverse := by
  refine ⟨by decide, by decide, by decide, by decide⟩

/-- C5 (amended): for every sequence in which every identifier appears
exactly twice and no two adjacent elements are equal, the sign list
produced from the reversed input is the reverse of the sign list produced
from the original input. -/
theorem spin_glass_reverse_signs (s : List Nat)
    (h2 : eachExactlyTwice s) (h1 : noAdjacentEqual s) :
    interactionSigns (spin_glass s.reverse)
      = (interactionSigns (spin_glass s)).reverse := by
  have h2r : eachExactlyTwice s.reverse := by
    intro x hx
    rw [List.count_reverse x s]
    exact h2 x (by simpa using hx)
  have h1r : noAdjacentEqual s.reverse :=
    List.chain'_reverse.mpr (h1.imp fun a b hab => Ne.symm hab)
  rw [show spin_glass s.reverse = specSpinGlass [] s.reverse from
        spinGlassAux_eq_spec s.reverse [] [] (fun _ => Iff.rfl) h1r,
      show spin_glass s = specSpinGlass [] s from
        spinGlassAux_eq_spec s [] [] (fun _ => Iff.rfl) h1]
  rw [specSpinGlass_signs s.reverse [] h1r, specSpinGlass_signs s [] h1]
  rw [occFlags_reverse s h2, pairSigns_reverse, pairSigns_map_not]

/-- Witness for C5 at the sequence [0, 1, 0, 1]. -/
theorem spin_glass_reverse_signs_witness :
    interactionSigns (spin_glass (List.reverse [0, 1, 0, 1]))
      = (interactionSigns (spin_glass [0, 1, 0, 1])).reverse :=
  spin_glass_reverse_signs [0, 1, 0, 1] (by decide) (by decide)

/-! ### Structure of the emitted stream (claims C7, C8) -/

/-- Closed form of one loop iteration on a differing adjacent pair. -/
theorem spinGlassAux_cons_cons (ap : List Nat) (a b : Nat) (rest : List Nat)
    (hab : a ≠ b) :
    spinGlassAux ap (a :: b :: rest)
      = (a, b, if decide (a ∈ ap) = decide (b ∈ a :: ap)
               then ferromagnetic else antiferromagnetic)
        :: spinGlassAux (a :: ap) (b :: rest) := by
  by_cases ha : a ∈ ap <;> by_cases hb : b ∈ a :: ap <;>
    simp [spinGlassAux, hab, ha, hb]

/-- Dropping the signs, the emitted stream is exactly the in-order list of
adjacent pairs with differing identifiers. -/
theorem spinGlassAux_pairsProj :
    ∀ (t ap : List Nat),
      (spinGlassAux ap t).map (fun tr => (tr.1, tr.2.1))
        = (t.zip t.tail).filter (fun p => p.1 != p.2) := by
  intro t
  induction t with
  | nil => intro ap; rfl
  | cons a t ih =>
    intro ap
    cases t with
    | nil => rfl
    | cons b rest =>
      by_cases hab : a = b
      · subst hab
        have hcode : spinGlassAux ap (a :: a :: rest) = spinGlassAux ap (a :: rest) := by
          simp [spinGlassAux]
        rw [hcode, ih ap]
        simp [List.filter_cons]
      · rw [spinGlassAux_cons_cons ap a b rest hab]
        simp only [List.map_cons, ih (a :: ap)]
        have hne : (a != b) = true := bne_iff_ne.mpr hab
        simp [List.filter_cons, hne]

/-- Every emitted triple has a sign in {+1, −1} and distinct endpoints. -/
theorem spinGlassAux_mem :
    ∀ (t ap : List Nat) (tr : Nat × Nat × Int), tr ∈ spinGlassAux ap t →
      (tr.2.2 = 1 ∨ tr.2.2 = -1) ∧ tr.1 ≠ tr.2.1 := by
  intro t
  induction t with
  | nil => intro ap tr htr; simp [spinGlassAux] at htr
  | cons a t ih =>
    intro ap tr htr
    cases t with
    | nil => simp [spinGlassAux] at htr
    | cons b rest =>
      by_cases hab : a = b
      · have hcode : spinGlassAux ap (a :: b :: rest) = spinGlassAux ap (b :: rest) := by
          simp [spinGlassAux, hab]
        rw [hcode] at htr
        exact ih ap tr htr
      · rw [spinGlassAux_cons_cons ap a b rest hab] at htr
        rcases List.mem_cons.mp htr with heq | htl
        · subst heq
          refine ⟨?_, hab⟩
          by_cases h : decide (a ∈ ap) = decide (b ∈ a :: ap)
          · refine Or.inr ?_
            show (if decide (a ∈ ap) = decide (b ∈ a :: ap)
                  then ferromagnetic else antiferromagnetic) = -1
            simp only [if_pos h]
            rfl
          · refine Or.inl ?_
            show (if decide (a ∈ ap) = decide (b ∈ a :: ap)
                  then ferromagnetic else antiferromagnetic) = 1
            simp only [if_neg h]
            rfl
        · exact ih (a :: ap) tr htl

/-- C7: the output of `spin_glass` walks the adjacent pairs in input order,
emitting nothing on an equal pair and exactly one triple on a differing
pair, whose first two components are the pair in order (hence distinct)
and whose sign lies in {+1, −1}; singletons and all-equal-adjacent
sequences such as [x, x] produce no interaction. -/
theorem spin_glass_stream_structure (s : List Nat) :
    (spin_glass s).map (fun tr => (tr.1, tr.2.1))
        = (s.zip s.tail).filter (fun p => p.1 != p.2) ∧
      (∀ tr ∈ spin_glass s, (tr.2.2 = 1 ∨ tr.2.2 = -1) ∧ tr.1 ≠ tr.2.1) ∧
      (∀ x : Nat, spin_glass [x] = []) ∧
      (∀ x : Nat, spin_glass [x, x] = []) := by
  refine ⟨spinGlassAux_pairsProj s [], fun tr htr => spinGlassAux_mem s [] tr htr,
    fun x => rfl, fun x => ?_⟩
  show spinGlassAux [] [x, x] = []
  simp [spinGlassAux]

/-- Witness for C7 at the sequence [0, 1] and the triple (0, 1, −1). -/
theorem spin_glass_stream_structure_witness :
    ((spin_glass [0, 1]).map (fun tr => (tr.1, tr.2.1))
        = (([0, 1] : List Nat).zip [1]).filter (fun p => p.1 != p.2)) ∧
      ((((0, 1, -1) : Nat × Nat × Int).2.2 = 1
          ∨ ((0, 1, -1) : Nat × Nat × Int).2.2 = -1)
        ∧ ((0, 1, -1) : Nat × Nat × Int).1 ≠ ((0, 1, -1) : Nat × Nat × Int).2.1) ∧
      spin_glass [5] = [] ∧ spin_glass [7, 7] = [] :=
  ⟨(spin_glass_stream_structure [0, 1]).1,
   (spin_glass_stream_structure [0, 1]).2.1 (0, 1, -1) (by decide),
   (spin_glass_stream_structure [0, 1]).2.2.1 5,
   (spin_glass_stream_structure [0, 1]).2.2.2 7⟩

/-- C8: `spin_glass` performs no validation: on a malformed sequence (an
identifier occurring a number of times other than two, or odd length) it
still runs to completion, emitting one triple per differing adjacent pair,
in order. -/
theorem spin_glass_no_validation (s : List Nat) (_hmal : malformedSequence s) :
    (spin_glass s).length = countDiffAdj s ∧
      (spin_glass s).map (fun tr => (tr.1, tr.2.1))
        = (s.zip s.tail).filter (fun p => p.1 != p.2) :=
  ⟨spinGlassAux_length s [], spinGlassAux_pairsProj s []⟩

/-- Witness for C8 at the malformed sequence [0, 1, 1] (identifier 0 occurs
once, length is odd). -/
theorem spin_glass_no_validation_witness :
    (spin_glass [0, 1, 1]).length = countDiffAdj [0, 1, 1] ∧
      (spin_glass [0, 1, 1]).map (fun tr => (tr.1, tr.2.1))
        = (([0, 1, 1] : List Nat).zip [1, 1]).filter (fun p => p.1 != p.2) :=
  spin_glass_no_validation [0, 1, 1] (by decide)

/-! ### The color-change scorer (claims C6, C9, C10) -/

/-- The `painted_once` set of `color_changes` tracks exactly the
identifiers of earlier positions: the derived color sequence is the
positional description of the spec.  Generalised over membership-equivalent
accumulators. -/
theorem colorSeqAux_eq_spec :
    ∀ (t painted seen : List Nat) (paint : List Bool),
      (∀ x, x ∈ painted ↔ x ∈ seen) →
      colorSeqAux paint painted t
        = List.zipWith
            (fun car fa => if fa then paint.getD car false else !paint.getD car false)
            t (occFlags seen t) := by
  intro t
  induction t with
  | nil => intro painted seen paint _; rfl
  | cons car rest ih =>
    intro painted seen paint hm
    by_cases hc : car ∈ painted
    · have hc2 : car ∈ seen := (hm car).mp hc
      have hm2 : ∀ x, x ∈ painted ↔ x ∈ car :: seen := by
        intro x
        rw [hm x, List.mem_cons]
        exact ⟨fun h => Or.inr h, fun h => by
          rcases h with rfl | h
          exacts [hc2, h]⟩
      simp [colorSeqAux, occFlags, hc, hc2, ih painted (car :: seen) paint hm2]
    · have hc2 : car ∉ seen := fun hx => hc ((hm car).mpr hx)
      have hm2 : ∀ x, x ∈ car :: painted ↔ x ∈ car :: seen := by
        intro x
        simp only [List.mem_cons, hm x]
      simp [colorSeqAux, occFlags, hc, hc2, ih (car :: painted) (car :: seen) paint hm2]

/-- C6: `color_changes` returns the number of adjacent color changes of the
derived color sequence in which a first occurrence of identifier c is
colored paint_bitstring[c] and every later occurrence the Boolean negation
of paint_bitstring[c]; for car sequence [0, 1, 0, 1] with first-car colors
[0, 1] the result is 2. -/
theorem color_changes_spec (paint : List Bool) (s : List Nat)
    (_hvalid : ∀ c ∈ s, c < paint.length) :
    color_changes paint s = paintChangeCount (specColorSeq paint s) ∧
      color_changes [false, true] [0, 1, 0, 1] = 2 := by
  refine ⟨?_, by decide⟩
  exact congrArg paintChangeCount (colorSeqAux_eq_spec s [] [] paint (fun _ => Iff.rfl))

/-- Witness for C6 at paint bitstring [0, 1] and car sequence [0, 1, 0, 1]. -/
theorem color_changes_spec_witness :
    color_changes [false, true] [0, 1, 0, 1]
        = paintChangeCount (specColorSeq [false, true] [0, 1, 0, 1]) ∧
      color_changes [false, true] [0, 1, 0, 1] = 2 :=
  color_changes_spec [false, true] [0, 1, 0, 1] (by decide)

/-- C9: `spin_glass` and `color_changes` are deterministic functions of
their inputs: equal inputs give equal outputs.  (In this embedding both are
pure functions; the source mutates only loop-local state, never the input
sequence.) -/
theorem extractor_deterministic (s1 s2 : List Nat) (p1 p2 : List Bool)
    (hs : s1 = s2) (hp : p1 = p2) :
    spin_glass s1 = spin_glass s2 ∧ color_changes p1 s1 = color_changes p2 s2 := by
  subst hs; subst hp; exact ⟨rfl, rfl⟩

/-- Witness for C9 at the sequence [0, 1, 0, 1] and bitstring [false, true]. -/
theorem extractor_deterministic_witness :
    spin_glass [0, 1, 0, 1] = spin_glass [0, 1, 0, 1] ∧
      color_changes [false, true] [0, 1, 0, 1] = color_changes [false, true] [0, 1, 0, 1] :=
  extractor_deterministic [0, 1, 0, 1] [0, 1, 0, 1] [false, true] [false, true] rfl rfl

theorem colorSeqAux_length :
    ∀ (t painted : List Nat) (paint : List Bool),
      (colorSeqAux paint painted t).length = t.length := by
  intro t
  induction t with
  | nil => intro painted paint; rfl
  | cons car rest ih =>
    intro painted paint
    by_cases hc : car ∈ painted <;> simp [colorSeqAux, hc, ih]

theorem paintChangeCount_le :
    ∀ l : List Bool, paintChangeCount l ≤ l.length - 1 := by
  intro l
  induction l with
  | nil => exact Nat.le_refl 0
  | cons a t ih =>
    cases t with
    | nil => exact Nat.le_refl 0
    | cons b rest =>
      have h1 : paintChangeCount (a :: b :: rest)
          = (if a = b then 0 else 1) + paintChangeCount (b :: rest) := rfl
      rw [h1]
      simp only [List.length_cons] at *
      by_cases hab : a = b <;> simp [hab] <;> omega

theorem paintChangeCount_short :
    ∀ l : List Bool, l.length ≤ 1 → paintChangeCount l = 0 := by
  intro l h
  cases l with
  | nil => rfl
  | cons a t =>
    cases t with
    | nil => rfl
    | cons b rest => simp at h

/-- C10: the value of `color_changes` lies between 0 and
max(0, length of the car sequence − 1); an empty or singleton car sequence
yields 0.  (The lower bound 0 is inherent to the natural-number result.) -/
theorem color_changes_bounds (paint : List Bool) (s : List Nat) :
    color_changes paint s ≤ s.length - 1 ∧
      (s.length ≤ 1 → color_changes paint s = 0) := by
  have hlen := colorSeqAux_length s [] paint
  constructor
  · have hle := paintChangeCount_le (colorSeqAux paint [] s)
    show paintChangeCount (colorSeqAux paint [] s) ≤ s.length - 1
    omega
  · intro hs
    show paintChangeCount (colorSeqAux paint [] s) = 0
    exact paintChangeCount_short _ (by rw [hlen]; exact hs)

/-- Witness for C10 at the singleton car sequence [0]. -/
theorem color_changes_bounds_witness :
    color_changes [false] [0] = 0 :=
  (color_changes_bounds [false] [0]).2 (by decide)

